import Mathlib

/-!
Shallow embedding of the naming-convention parser and filename-transformation
engine of the VR-Metadata-Inserter repository (src/app.py), together with
theorems settling the specification claims about it.

Strings are modelled as `List Char`.  The Python standard-library path
helpers used by the code (`os.path.splitext`, `os.path.dirname`,
`os.path.basename`, `os.path.join`) are embedded with their POSIX
(`posixpath`) semantics, which is the platform the application is run on in
this development: the path separator is `'/'` and the backslash is an
ordinary filename character for those helpers (the application's own
subdirectory check additionally looks for a backslash).
-/

namespace VRApp

abbrev Str := List Char

/-- ASCII whitespace characters stripped by Python's `str.strip()`. -/
def isSpaceChar (c : Char) : Bool :=
  c = ' ' || c = '\t' || c = '\n' || c = '\r' || c = '\x0b' || c = '\x0c'

/-- Python `str.lstrip()` (whitespace). -/
def lstripWs (s : Str) : Str := s.dropWhile isSpaceChar

/-- Python `str.rstrip()` (whitespace). -/
def rstripWs (s : Str) : Str := (s.reverse.dropWhile isSpaceChar).reverse

/-- Python `str.strip()` (whitespace). -/
def stripWs (s : Str) : Str := rstripWs (lstripWs s)

/-- Python `str.rstrip(":")`. -/
def rstripColon (s : Str) : Str := (s.reverse.dropWhile (fun c => c = ':')).reverse

/-- Index of the last occurrence of `c` in the list (Python `str.rfind`,
with `none` in place of `-1`). -/
def lastIdx (c : Char) : Str → Option Nat
  | [] => none
  | a :: rest =>
    match lastIdx c rest with
    | some i => some (i + 1)
    | none => if a = c then some 0 else none

/-- Start index of the basename region scanned by `splitext`:
one past the last `'/'`, or `0` when there is none. -/
def sepStart (p : Str) : Nat :=
  match lastIdx '/' p with
  | some i => i + 1
  | none => 0

/-- `posixpath.splitext`: split off the extension at the last dot, unless
every character of the basename before that dot is itself a dot (then the
extension is empty). -/
def splitext (p : Str) : Str × Str :=
  match lastIdx '.' p with
  | none => (p, [])
  | some d =>
    if sepStart p ≤ d then
      if ((p.drop (sepStart p)).take (d - sepStart p)).any (fun c => c != '.') then
        (p.take d, p.drop d)
      else (p, [])
    else (p, [])

/-- Python substring containment (`pat in s`). -/
def isSubstr (pat s : Str) : Bool :=
  (List.range (s.length + 1)).any (fun i => (s.drop i).take pat.length == pat)

/-- `build_new_name` from src/app.py: insert the pattern before the
extension unless the stem already contains it. -/
def build_new_name (original_name pattern : Str) : Str :=
  if isSubstr pattern (splitext original_name).1 then
    (splitext original_name).1 ++ (splitext original_name).2
  else (splitext original_name).1 ++ pattern ++ (splitext original_name).2

/-- `posixpath.basename`. -/
def basename (p : Str) : Str :=
  match lastIdx '/' p with
  | some i => p.drop (i + 1)
  | none => p

/-- One past the index of the last `'/'` (`p.rfind(sep) + 1` in
`posixpath.dirname`). -/
def dirnameIdx (p : Str) : Nat :=
  match lastIdx '/' p with
  | some k => k + 1
  | none => 0

/-- Python `head.rstrip("/")`. -/
def rstripSlash (s : Str) : Str := (s.reverse.dropWhile (fun c => c = '/')).reverse

/-- `posixpath.dirname`. -/
def dirname (p : Str) : Str :=
  if p.take (dirnameIdx p) ≠ [] ∧ ¬ (p.take (dirnameIdx p)).all (fun c => c = '/') then
    rstripSlash (p.take (dirnameIdx p))
  else p.take (dirnameIdx p)

/-- `posixpath.join` restricted to two arguments, as used by the code. -/
def joinPath (a b : Str) : Str :=
  if b.take 1 = ['/'] then b
  else if a = [] then a ++ b
  else if a.getLast? = some '/' then a ++ b
  else a ++ '/' :: b

/-- The per-file renaming performed by `api_preview` / `api_export` in
src/app.py: when the path contains a separator, rename only the trailing
component and reattach the directory part. -/
def previewName (f pattern : Str) : Str :=
  if '/' ∈ f ∨ '\x5c' ∈ f then
    joinPath (dirname f) (build_new_name (basename f) pattern)
  else build_new_name f pattern

/-- The apostrophe character (code 39), used in one canonical player name. -/
def aposChar : Char := Char.ofNat 39

/-- Canonical name containing an apostrophe. -/
def playaCanon : Str := "PLAY".data ++ [aposChar] ++ "A VR".data

/-- The normalized header text: `header_line.strip().rstrip(":")`. -/
def headerText (header_line : Str) : Str := rstripColon (stripWs header_line)

/-- `_normalize_section_name` from src/app.py: strip surrounding whitespace,
strip trailing colons, then map known case-insensitive prefixes to canonical
player names, falling back to the stripped text itself. -/
def _normalize_section_name (header_line : Str) : Str :=
  if ("UNIVERSAL PATTERNS".data).isPrefixOf ((headerText header_line).map Char.toUpper) then
    "Universal".data
  else if ("PLAYA VR".data).isPrefixOf ((headerText header_line).map Char.toUpper)
      || ("PLAYA VR SPECIFIC".data).isPrefixOf ((headerText header_line).map Char.toUpper) then
    playaCanon
  else if ("SKYBOX VR".data).isPrefixOf ((headerText header_line).map Char.toUpper) then
    "Skybox VR Player".data
  else if ("PIGASUS".data).isPrefixOf ((headerText header_line).map Char.toUpper) then
    "Pigasus VR".data
  else if ("RAD TV".data).isPrefixOf ((headerText header_line).map Char.toUpper) then
    "Rad TV".data
  else if ("COMMEDIA".data).isPrefixOf ((headerText header_line).map Char.toUpper) then
    "Commedia".data
  else if ("OCULUS".data).isPrefixOf ((headerText header_line).map Char.toUpper) then
    "Oculus Video App".data
  else headerText header_line

/-- The ordered prefix-to-canonical-name rule table described by the spec. -/
def sectionRules : List (Str × Str) :=
  [("UNIVERSAL PATTERNS".data, "Universal".data),
   ("PLAYA VR".data, playaCanon),
   ("SKYBOX VR".data, "Skybox VR Player".data),
   ("PIGASUS".data, "Pigasus VR".data),
   ("RAD TV".data, "Rad TV".data),
   ("COMMEDIA".data, "Commedia".data),
   ("OCULUS".data, "Oculus Video App".data)]

/-- First rule whose prefix matches, scanning the table in order. -/
def applyRules : List (Str × Str) → Str → Option Str
  | [], _ => none
  | (pre, canon) :: rest, t =>
    if pre.isPrefixOf t then some canon else applyRules rest t

/-- Modelled from the spec: header canonicalization as a data-driven ordered
rule table (case-insensitive prefix match, first match wins, unrecognized
headers pass through as the stripped text). -/
def normalizeSpec (header_line : Str) : Str :=
  match applyRules sectionRules ((headerText header_line).map Char.toUpper) with
  | some canon => canon
  | none => headerText header_line

/-- Association-list lookup (insertion-ordered dict model). -/
def lookup? (k : Str) : List (Str × List Str) → Option (List Str)
  | [] => none
  | (k₂, v) :: rest => if k₂ = k then some v else lookup? k rest

/-- Replace the value stored at a key, appending the pair when absent. -/
def setKey (k : Str) (v : List Str) : List (Str × List Str) → List (Str × List Str)
  | [] => [(k, v)]
  | (k₂, w) :: rest =>
    if k₂ = k then (k₂, v) :: rest else (k₂, w) :: setKey k v rest

/-- Prepend a character to the first piece of a split. -/
def consHead (a : Char) : List Str → List Str
  | [] => [[a]]
  | h :: t => (a :: h) :: t

/-- Split a list at every occurrence of a character (Python `str.split(c)`). -/
def splitOnChar (c : Char) : Str → List Str
  | [] => [[]]
  | a :: rest =>
    if a = c then [] :: splitOnChar c rest
    else consHead a (splitOnChar c rest)

/-- Candidate tokens of a pattern line (src/app.py lines 59-64): the part
before the first `'='` split on commas, each piece stripped; without `'='`
the whole stripped line. -/
def extractTokens (line : Str) : List Str :=
  if '=' ∈ line then
    (splitOnChar ',' (line.takeWhile (fun c => c != '='))).map stripWs
  else [stripWs line]

/-- The token-acceptance loop (src/app.py lines 66-71): skip empties, accept
a candidate only when it starts with an underscore and is not yet present. -/
def addTokens (cur : List Str) : List Str → List Str
  | [] => cur
  | t :: ts =>
    if t = [] then addTokens cur ts
    else if (['_'].isPrefixOf t) ∧ t ∉ cur then addTokens (cur ++ [t]) ts
    else addTokens cur ts

/-- Parser state: the table built so far and the current section name
(the empty string doubles as the no-section-yet sentinel). -/
structure PState where
  conventions : List (Str × List Str)
  current : Str
deriving DecidableEq

def initState : PState := ⟨[], []⟩

/-- Table update performed by a header line: create an empty token sequence
for a canonical name not seen before. -/
def headerUpdate (sec : Str) (m : List (Str × List Str)) : List (Str × List Str) :=
  match lookup? sec m with
  | some _ => m
  | none => m ++ [(sec, [])]

/-- The token sequence currently stored for a key (defaulting to empty). -/
def oldTokens (k : Str) (m : List (Str × List Str)) : List Str :=
  match lookup? k m with
  | some v => v
  | none => []

/-- One iteration of the line loop of `parse_naming_conventions`. -/
def processLine (st : PState) (line : Str) : PState :=
  if stripWs line = [] then st
  else if (stripWs line).getLast? = some ':' then
    ⟨headerUpdate (_normalize_section_name line) st.conventions,
      _normalize_section_name line⟩
  else if st.current = [] then st
  else
    ⟨setKey st.current
        (addTokens (oldTokens st.current st.conventions) (extractTokens line))
        st.conventions,
      st.current⟩

/-- The table as built by the line loop, before the final per-section sort. -/
def parseRawTable (lines : List Str) : List (Str × List Str) :=
  (lines.foldl processLine initState).conventions

/-- Strict lexicographic comparison on character code points
(Python string `<`). -/
def lexLt : Str → Str → Bool
  | [], [] => false
  | [], _ :: _ => true
  | _ :: _, [] => false
  | a :: as, b :: bs => if a < b then true else if b < a then false else lexLt as bs

/-- Comparison used by the final sort: Python `key=lambda s: s.lower()`. -/
def lowerLt (a b : Str) : Bool := lexLt (a.map Char.toLower) (b.map Char.toLower)

/-- Insert an element after every already-placed element that is not
strictly greater (the insertion step of a stable sort). -/
def insLower (x : Str) : List Str → List Str
  | [] => [x]
  | y :: ys => if lowerLt x y then x :: y :: ys else y :: insLower x ys

/-- Stable insertion sort by the case-insensitive key, modelling Python's
stable `sorted(tokens, key=lambda s: s.lower())`. -/
def insSortLower (l : List Str) : List Str :=
  l.foldl (fun acc x => insLower x acc) []

/-- `parse_naming_conventions` from src/app.py, over the file's lines
(file reading is external I/O; an absent file yields no lines and hence the
empty table). -/
def parse_naming_conventions (lines : List Str) : List (Str × List Str) :=
  (parseRawTable lines).map (fun kv => (kv.1, insSortLower kv.2))

/-- Nonempty leading `'/'`-components of a path (all components except the
last one). -/
def slashInit (s : Str) : List Str :=
  ((splitOnChar '/' s).dropLast).filter (fun c => c ≠ [])

/-- Components of a path when both `'/'` and `'\'` are read as separators,
the reading used by the specification's path-preservation claim. -/
def splitSeps (s : Str) : List Str :=
  ((splitOnChar '/' s).map (splitOnChar '\x5c')).flatten

/-! ### Lemmas about `lastIdx`, `splitext` and `isSubstr` -/

theorem lastIdx_none_iff {c : Char} {l : Str} : lastIdx c l = none ↔ c ∉ l := by
  induction l with
  | nil => simp [lastIdx]
  | cons a rest ih =>
    unfold lastIdx
    cases h : lastIdx c rest with
    | some i =>
      have hcr : c ∈ rest := by
        by_contra hc
        rw [ih.mpr hc] at h
        cases h
      simp [hcr]
    | none =>
      have hrest : c ∉ rest := ih.mp h
      by_cases hac : a = c
      · simp [hac]
      · simp only [if_neg hac, List.mem_cons]
        simp [hrest]
        exact fun hh => hac hh.symm

theorem lastIdx_bound {c : Char} {l : Str} {i : Nat} (h : lastIdx c l = some i) :
    i < l.length := by
  induction l generalizing i with
  | nil => simp [lastIdx] at h
  | cons a rest ih =>
    unfold lastIdx at h
    cases h2 : lastIdx c rest with
    | some k =>
      rw [h2] at h
      have hk := ih h2
      have hik : k + 1 = i := Option.some.inj h
      simp only [List.length_cons]
      omega
    | none =>
      rw [h2] at h
      by_cases hac : a = c
      · rw [if_pos hac] at h
        have : (0 : Nat) = i := Option.some.inj h
        simp [← this]
      · rw [if_neg hac] at h
        cases h

theorem lastIdx_append_some {c : Char} {xs ys : Str} {j : Nat}
    (h : lastIdx c ys = some j) : lastIdx c (xs ++ ys) = some (xs.length + j) := by
  induction xs with
  | nil => simpa using h
  | cons a rest ih =>
    have : lastIdx c (a :: (rest ++ ys)) = some (rest.length + j + 1) := by
      unfold lastIdx
      rw [ih]
    simpa [Nat.add_comm, Nat.add_left_comm, Nat.add_assoc] using this

theorem lastIdx_append_none {c : Char} {xs ys : Str}
    (h : lastIdx c ys = none) : lastIdx c (xs ++ ys) = lastIdx c xs := by
  induction xs with
  | nil => simpa using h
  | cons a rest ih =>
    show lastIdx c (a :: (rest ++ ys)) = lastIdx c (a :: rest)
    unfold lastIdx
    rw [ih]

theorem lastIdx_drop {c : Char} {l : Str} {i : Nat} (h : lastIdx c l = some i) :
    ∃ post, l.drop i = c :: post ∧ c ∉ post := by
  induction l generalizing i with
  | nil => simp [lastIdx] at h
  | cons a rest ih =>
    unfold lastIdx at h
    cases h2 : lastIdx c rest with
    | some k =>
      rw [h2] at h
      simp at h
      obtain ⟨post, hp1, hp2⟩ := ih h2
      exact ⟨post, by simp [← h, hp1], hp2⟩
    | none =>
      rw [h2] at h
      by_cases hac : a = c
      · simp [hac] at h
        exact ⟨rest, by simp [← h, hac], lastIdx_none_iff.mp h2⟩
      · simp [hac] at h

theorem splitext_append (p : Str) : (splitext p).1 ++ (splitext p).2 = p := by
  unfold splitext
  cases h : lastIdx '.' p with
  | none => simp
  | some d =>
    by_cases h1 : sepStart p ≤ d
    · by_cases h2 :
        ((p.drop (sepStart p)).take (d - sepStart p)).any (fun c => c != '.') = true
      · simp [h1, h2, List.take_append_drop]
      · simp [h1, h2]
    · simp [h1]

theorem isSubstr_sandwich (p xs ys : Str) : isSubstr p (xs ++ p ++ ys) = true := by
  unfold isSubstr
  rw [List.any_eq_true]
  refine ⟨xs.length, List.mem_range.mpr ?_, ?_⟩
  · simp
    omega
  · rw [List.append_assoc, List.drop_left, List.take_left]
    simp

theorem isSubstr_self_append (p ys : Str) : isSubstr p (p ++ ys) = true := by
  have := isSubstr_sandwich p [] ys
  simpa using this

theorem splitext_cases (f : Str) :
    (lastIdx '.' f = none ∧ splitext f = (f, [])) ∨
    (∃ d, lastIdx '.' f = some d ∧
      ¬ (sepStart f ≤ d ∧
        ((f.drop (sepStart f)).take (d - sepStart f)).any (fun c => c != '.') = true) ∧
      splitext f = (f, [])) ∨
    (∃ d, lastIdx '.' f = some d ∧
      (sepStart f ≤ d ∧
        ((f.drop (sepStart f)).take (d - sepStart f)).any (fun c => c != '.') = true) ∧
      splitext f = (f.take d, f.drop d)) := by
  unfold splitext
  cases h : lastIdx '.' f with
  | none => exact Or.inl ⟨rfl, rfl⟩
  | some d =>
    by_cases h1 : sepStart f ≤ d
    · by_cases h2 :
        ((f.drop (sepStart f)).take (d - sepStart f)).any (fun c => c != '.') = true
      · exact Or.inr (Or.inr ⟨d, rfl, ⟨h1, h2⟩, by simp [h1, h2]⟩)
      · exact Or.inr (Or.inl ⟨d, rfl, fun hc => h2 hc.2, by simp [h1, h2]⟩)
    · exact Or.inr (Or.inl ⟨d, rfl, fun hc => h1 hc.1, by simp [h1]⟩)

theorem splitext_eq_of_none {p : Str} (h : lastIdx '.' p = none) :
    splitext p = (p, []) := by
  unfold splitext
  rw [h]

theorem splitext_eq_of_not_sep {p : Str} {d : Nat} (h : lastIdx '.' p = some d)
    (h1 : ¬ sepStart p ≤ d) : splitext p = (p, []) := by
  unfold splitext
  simp [h, h1]

theorem splitext_eq_of_not_any {p : Str} {d : Nat} (h : lastIdx '.' p = some d)
    (h2 : ¬ ((p.drop (sepStart p)).take (d - sepStart p)).any (fun c => c != '.') = true) :
    splitext p = (p, []) := by
  unfold splitext
  simp [h, h2]

theorem splitext_eq_of_split {p : Str} {d : Nat} (h : lastIdx '.' p = some d)
    (h1 : sepStart p ≤ d)
    (h2 : ((p.drop (sepStart p)).take (d - sepStart p)).any (fun c => c != '.') = true) :
    splitext p = (p.take d, p.drop d) := by
  unfold splitext
  simp [h, h1, h2]

theorem build_of_not_substr {f p : Str} (hs : isSubstr p (splitext f).1 = false) :
    build_new_name f p = (splitext f).1 ++ p ++ (splitext f).2 := by
  unfold build_new_name
  rw [hs]
  simp

theorem build_of_substr {f p : Str} (hs : isSubstr p (splitext f).1 = true) :
    build_new_name f p = f := by
  unfold build_new_name
  rw [hs]
  simp [splitext_append]

/-- Appending a dot-free tail to a name that `splitext` leaves whole keeps
it whole. -/
theorem splitext_append_of_whole {f p : Str} (hp : '.' ∉ p)
    (hf : splitext f = (f, [])) : splitext (f ++ p) = (f ++ p, []) := by
  rcases splitext_cases f with ⟨hn, _⟩ | ⟨d, hd, hcond, _⟩ | ⟨d, hd, _, heq⟩
  · exact splitext_eq_of_none
      (by rw [lastIdx_append_none (lastIdx_none_iff.mpr hp)]; exact hn)
  · have hdlt : d < f.length := lastIdx_bound hd
    have hfp : lastIdx '.' (f ++ p) = some d := by
      rw [lastIdx_append_none (lastIdx_none_iff.mpr hp)]
      exact hd
    cases hsl : lastIdx '/' p with
    | some j =>
      apply splitext_eq_of_not_sep hfp
      have hj : lastIdx '/' (f ++ p) = some (f.length + j) := lastIdx_append_some hsl
      simp [sepStart, hj]
      omega
    | none =>
      have hsep : sepStart (f ++ p) = sepStart f := by
        simp [sepStart, lastIdx_append_none hsl]
      by_cases h1 : sepStart f ≤ d
      · apply splitext_eq_of_not_any hfp
        rw [hsep]
        have hslice : ((f ++ p).drop (sepStart f)).take (d - sepStart f) =
            (f.drop (sepStart f)).take (d - sepStart f) := by
          rw [List.drop_append_eq_append_drop, List.take_append_eq_append_take]
          have e1 : sepStart f - f.length = 0 := by omega
          have e2 : d - sepStart f - (f.drop (sepStart f)).length = 0 := by
            simp
            omega
          rw [e1, e2]
          simp
        rw [hslice]
        intro hc
        exact hcond ⟨h1, hc⟩
      · apply splitext_eq_of_not_sep hfp
        rw [hsep]
        exact h1
  · -- the split branch contradicts hf: the extension contains the dot
    have hdlt : d < f.length := lastIdx_bound hd
    rw [heq] at hf
    have hde : f.drop d = [] := congrArg Prod.snd hf
    have : f.length - d = 0 := by
      simpa using congrArg List.length hde
    omega

/-- Key idempotence lemma: when the stem did not contain the (dot-free)
pattern, the stem produced by re-splitting the built name does contain it. -/
theorem isSubstr_splitext_build {f p : Str} (hp : '.' ∉ p)
    (hs : isSubstr p (splitext f).1 = false) :
    isSubstr p (splitext (build_new_name f p)).1 = true := by
  have hbuild := build_of_not_substr hs
  rcases splitext_cases f with ⟨hn, heq⟩ | ⟨d, hd, _, heq⟩ | ⟨d, hd, _, heq⟩
  · have h2 : splitext (f ++ p) = (f ++ p, []) := splitext_append_of_whole hp heq
    rw [hbuild, heq]
    simp only [List.append_nil]
    rw [h2]
    simpa using isSubstr_sandwich p f []
  · have h2 : splitext (f ++ p) = (f ++ p, []) := splitext_append_of_whole hp heq
    rw [hbuild, heq]
    simp only [List.append_nil]
    rw [h2]
    simpa using isSubstr_sandwich p f []
  · obtain ⟨post, hdrop, hpost⟩ := lastIdx_drop hd
    rw [hbuild, heq]
    simp only []
    rw [hdrop]
    set n := f.take d with hn
    have hdotpost : lastIdx '.' ('.' :: post) = some 0 := by
      unfold lastIdx
      rw [lastIdx_none_iff.mpr hpost]
      simp
    have hmid : lastIdx '.' (p ++ '.' :: post) = some p.length :=
      (by simpa using @lastIdx_append_some '.' p ('.' :: post) 0 hdotpost)
    have hr : lastIdx '.' (n ++ p ++ '.' :: post) = some (n.length + p.length) := by
      rw [List.append_assoc]
      exact lastIdx_append_some hmid
    rcases splitext_cases (n ++ p ++ '.' :: post) with
      ⟨hn2, _⟩ | ⟨d2, _, _, heq2⟩ | ⟨d2, hd2, _, heq2⟩
    · rw [hr] at hn2
      cases hn2
    · rw [heq2]
      simpa using isSubstr_sandwich p n ('.' :: post)
    · rw [hr] at hd2
      have hd2e : n.length + p.length = d2 := Option.some.inj hd2
      rw [heq2]
      have htake : (n ++ p ++ '.' :: post).take (n.length + p.length) = n ++ p := by
        rw [← List.length_append]
        exact List.take_left (n ++ p) ('.' :: post)
      rw [← hd2e, htake]
      simpa using isSubstr_sandwich p n []

/-! ### Claim C1: idempotence of the name transformation -/

/-- C1 counterexample: with a pattern containing a dot the transformation is
not idempotent — `build(build("a", ".x"), ".x") = "a.x.x" ≠ "a.x" =
build("a", ".x")`. -/
theorem C1_counterexample :
    build_new_name (build_new_name "a".data ".x".data) ".x".data = "a.x.x".data ∧
      build_new_name "a".data ".x".data = "a.x".data ∧
      "a.x.x".data ≠ "a.x".data := by
  refine ⟨by decide, by decide, by decide⟩

/-- C1 (amended): for every original filename `f` and every pattern `p` that
contains no dot, the name transformation is idempotent:
`build(build(f, p), p) = build(f, p)`. -/
theorem C1_idempotent (f p : Str) (hp : '.' ∉ p) :
    build_new_name (build_new_name f p) p = build_new_name f p := by
  cases hs : isSubstr p (splitext f).1 with
  | true =>
    rw [build_of_substr hs]
    exact build_of_substr hs
  | false => exact build_of_substr (isSubstr_splitext_build hp hs)

/-- Witness for C1: the amended idempotence at a concrete input. -/
theorem C1_witness :
    build_new_name (build_new_name "clip.mp4".data "_LR".data) "_LR".data =
      build_new_name "clip.mp4".data "_LR".data :=
  C1_idempotent "clip.mp4".data "_LR".data (by decide)

/-! ### Claim C2: the stem/extension split -/

/-- C2 counterexample: for a filename beginning with a dot the pattern is not
placed before the last-dot suffix — `build(".hidden", "_LR")` is
`".hidden_LR"`, not `"_LR.hidden"`. -/
theorem C2_counterexample :
    build_new_name ".hidden".data "_LR".data = ".hidden_LR".data ∧
      ".hidden_LR".data ≠ "_LR".data ++ ".hidden".data := by
  refine ⟨by decide, by decide⟩

/-- C2 (amended): the split happens at the last dot whenever some character
of the basename strictly before that dot is not itself a dot; the pattern is
then inserted exactly there.  (When the filename has no dot, or only leading
dots in its basename, the extension is empty instead.) -/
theorem C2_last_dot_split (f p : Str) (d : Nat)
    (hd : lastIdx '.' f = some d)
    (h : ∃ k c, sepStart f ≤ k ∧ k < d ∧ f.get? k = some c ∧ c ≠ '.') :
    splitext f = (f.take d, f.drop d) ∧
      (isSubstr p (f.take d) = false →
        build_new_name f p = f.take d ++ p ++ f.drop d) := by
  obtain ⟨k, c, hsk, hkd, hget, hc⟩ := h
  have h1 : sepStart f ≤ d := le_of_lt (lt_of_le_of_lt hsk hkd)
  have e0 : (f.drop (sepStart f)).get? (k - sepStart f) = some c := by
    rw [List.get?_drop]
    have e : sepStart f + (k - sepStart f) = k := by omega
    rw [e]
    exact hget
  have e1 : ((f.drop (sepStart f)).take (d - sepStart f)).get? (k - sepStart f) =
      some c := by
    rw [List.get?_take (by omega : k - sepStart f < d - sepStart f)]
    exact e0
  have hany : ((f.drop (sepStart f)).take (d - sepStart f)).any
      (fun c => c != '.') = true :=
    List.any_eq_true.mpr ⟨c, List.get?_mem e1, by simpa using hc⟩
  have hsplit := splitext_eq_of_split hd h1 hany
  have hfst : (splitext f).1 = f.take d := by rw [hsplit]
  have hsnd : (splitext f).2 = f.drop d := by rw [hsplit]
  refine ⟨hsplit, fun hsub => ?_⟩
  have hs' : isSubstr p (splitext f).1 = false := by rw [hfst]; exact hsub
  rw [build_of_not_substr hs', hfst, hsnd]

/-- Witness for C2: the split and insertion point at a concrete input,
`build("clip.mp4", "_180_LR") = "clip_180_LR.mp4"`. -/
theorem C2_witness :
    splitext "clip.mp4".data = ("clip.mp4".data.take 4, "clip.mp4".data.drop 4) ∧
      build_new_name "clip.mp4".data "_180_LR".data =
        "clip.mp4".data.take 4 ++ "_180_LR".data ++ "clip.mp4".data.drop 4 := by
  have h := C2_last_dot_split "clip.mp4".data "_180_LR".data 4 (by decide)
    ⟨0, 'c', by decide, by decide, by decide, by decide⟩
  exact ⟨h.1, h.2 (by decide)⟩

/-! ### Claim C8: the empty pattern is a no-op -/

/-- C8: the empty pattern leaves every filename unchanged, because the empty
string is a substring of every stem. -/
theorem C8_empty_pattern :
    ∀ f : Str, isSubstr [] (splitext f).1 = true ∧ build_new_name f [] = f := by
  intro f
  have hsub : isSubstr [] (splitext f).1 = true := by
    simpa using isSubstr_sandwich [] [] (splitext f).1
  exact ⟨hsub, build_of_substr hsub⟩

/-! ### Lemmas about paths and `previewName` (claim C7) -/

theorem lastIdx_some_of_mem {c : Char} {l : Str} (h : c ∈ l) :
    ∃ i, lastIdx c l = some i := by
  cases h2 : lastIdx c l with
  | some i => exact ⟨i, rfl⟩
  | none => exact absurd (lastIdx_none_iff.mp h2) (by simp [h])

/-- Every character of a built name comes from the original name or the
pattern. -/
theorem mem_build {a : Char} {f p : Str} (h : a ∈ build_new_name f p) :
    a ∈ f ∨ a ∈ p := by
  cases hs : isSubstr p (splitext f).1 with
  | true =>
    rw [build_of_substr hs] at h
    exact Or.inl h
  | false =>
    rw [build_of_not_substr hs] at h
    rcases List.mem_append.mp h with h2 | h2
    · rcases List.mem_append.mp h2 with h3 | h3
      · refine Or.inl ?_
        rw [← splitext_append f]
        exact List.mem_append.mpr (Or.inl h3)
      · exact Or.inr h3
    · refine Or.inl ?_
      rw [← splitext_append f]
      exact List.mem_append.mpr (Or.inr h2)

theorem splitOnChar_cons_pos {c a : Char} (rest : Str) (h : a = c) :
    splitOnChar c (a :: rest) = [] :: splitOnChar c rest := by
  simp [splitOnChar, h]

theorem splitOnChar_cons_neg {c a : Char} (rest : Str) (h : ¬ a = c) :
    splitOnChar c (a :: rest) = consHead a (splitOnChar c rest) := by
  simp [splitOnChar, h]

theorem splitOnChar_ne_nil (c : Char) (s : Str) : splitOnChar c s ≠ [] := by
  cases s with
  | nil => simp [splitOnChar]
  | cons a rest =>
    by_cases hac : a = c
    · rw [splitOnChar_cons_pos rest hac]
      simp
    · rw [splitOnChar_cons_neg rest hac]
      cases splitOnChar c rest with
      | nil => simp [consHead]
      | cons h t => simp [consHead]

theorem splitOnChar_not_mem {c : Char} {s : Str} (h : c ∉ s) :
    splitOnChar c s = [s] := by
  induction s with
  | nil => rfl
  | cons a rest ih =>
    have hac : ¬ a = c := fun he => h (by simp [he])
    have hr : c ∉ rest := fun hm => h (List.mem_cons_of_mem a hm)
    rw [splitOnChar_cons_neg rest hac, ih hr]
    rfl

theorem splitOnChar_append (c : Char) (xs ys : Str) :
    splitOnChar c (xs ++ c :: ys) = splitOnChar c xs ++ splitOnChar c ys := by
  induction xs with
  | nil =>
    rw [List.nil_append, splitOnChar_cons_pos ys rfl]
    rfl
  | cons a rest ih =>
    by_cases hac : a = c
    · rw [List.cons_append, splitOnChar_cons_pos _ hac, ih,
        splitOnChar_cons_pos rest hac]
      rfl
    · rw [List.cons_append, splitOnChar_cons_neg _ hac, ih,
        splitOnChar_cons_neg rest hac]
      cases h2 : splitOnChar c rest with
      | nil => exact absurd h2 (splitOnChar_ne_nil c rest)
      | cons h t => simp [consHead]

/-- `slashInit` of a path whose final component has no slash is the list of
nonempty components of the directory part. -/
theorem slashInit_append {d t : Str} (h : '/' ∉ t) :
    slashInit (d ++ '/' :: t) = (splitOnChar '/' d).filter (fun c => c ≠ []) := by
  unfold slashInit
  rw [splitOnChar_append, splitOnChar_not_mem h, List.dropLast_concat]

theorem slashInit_no_sep {t : Str} (h : '/' ∉ t) : slashInit t = [] := by
  unfold slashInit
  rw [splitOnChar_not_mem h]
  rfl

theorem filter_splitOnChar_all_sep {z : Str} (h : ∀ c ∈ z, c = '/') :
    (splitOnChar '/' z).filter (fun c => c ≠ []) = [] := by
  induction z with
  | nil => rfl
  | cons a rest ih =>
    rw [splitOnChar_cons_pos rest (h a (by simp))]
    rw [List.filter_cons, if_neg (by simp)]
    exact ih (fun c hc => h c (List.mem_cons_of_mem a hc))

theorem filter_splitOnChar_append_all_sep {y z : Str} (h : ∀ c ∈ z, c = '/') :
    (splitOnChar '/' (y ++ z)).filter (fun c => c ≠ []) =
      (splitOnChar '/' y).filter (fun c => c ≠ []) := by
  cases z with
  | nil => simp
  | cons a rest =>
    have ha : a = '/' := h a (by simp)
    subst ha
    rw [splitOnChar_append, List.filter_append,
      filter_splitOnChar_all_sep (fun c hc => h c (List.mem_cons_of_mem _ hc))]
    simp

theorem dropWhile_head_not {p : Char → Bool} {l t : Str} {a : Char}
    (h : l.dropWhile p = a :: t) : p a = false := by
  induction l with
  | nil => simp [List.dropWhile] at h
  | cons b rest ih =>
    rw [List.dropWhile] at h
    cases hb : p b with
    | true => rw [hb] at h; exact ih h
    | false =>
      rw [hb] at h
      cases h
      exact hb

theorem dropWhile_ne_nil_of_exists {p : Char → Bool} {l : Str} {c : Char}
    (hm : c ∈ l) (hc : p c = false) : l.dropWhile p ≠ [] := by
  induction l with
  | nil => simp at hm
  | cons b rest ih =>
    rw [List.dropWhile]
    cases hb : p b with
    | true =>
      have hcb : c ≠ b := fun he => by rw [he, hb] at hc; cases hc
      have : c ∈ rest := by
        rcases List.mem_cons.mp hm with h | h
        · exact absurd h hcb
        · exact h
      simpa using ih this
    | false => simp

/-- Decompose a list into its slash-stripped part and an all-slash tail. -/
theorem rstripSlash_decomp (s : Str) :
    ∃ z, s = rstripSlash s ++ z ∧ ∀ c ∈ z, c = '/' := by
  refine ⟨(s.reverse.takeWhile (fun c => c = '/')).reverse, ?_, ?_⟩
  · unfold rstripSlash
    conv_lhs => rw [← List.reverse_reverse s]
    conv_lhs => rw [← List.takeWhile_append_dropWhile (fun c => c = '/') s.reverse]
    rw [List.reverse_append]
  · intro c hc
    have : c ∈ s.reverse.takeWhile (fun c => c = '/') := by
      simpa using hc
    have := List.mem_takeWhile_imp this
    simpa using this

theorem rstripSlash_getLast_ne {s : Str} :
    rstripSlash s = [] ∨ ∃ a t, rstripSlash s = t ++ [a] ∧ a ≠ '/' := by
  unfold rstripSlash
  cases h : s.reverse.dropWhile (fun c => c = '/') with
  | nil => exact Or.inl (by simp [h])
  | cons a t =>
    refine Or.inr ⟨a, t.reverse, by simp [h], ?_⟩
    have := dropWhile_head_not h
    simpa using this

theorem take_one_slash {s : Str} (h : '/' ∉ s) : ¬ s.take 1 = ['/'] := by
  intro hc
  apply h
  have hm : '/' ∈ s.take 1 := by
    rw [hc]
    simp
  exact List.take_subset 1 s hm

/-- `previewName` over an explicit last-separator decomposition of the
path. -/
theorem preview_decomp (D post p : Str) (hpost : '/' ∉ post) (hp : '/' ∉ p) :
    slashInit (joinPath (dirname (D ++ '/' :: post))
        (build_new_name (basename (D ++ '/' :: post)) p)) =
      slashInit (D ++ '/' :: post) := by
  have hlast : lastIdx '/' (D ++ '/' :: post) = some D.length := by
    have h0 : lastIdx '/' ('/' :: post) = some 0 := by
      unfold lastIdx
      rw [lastIdx_none_iff.mpr hpost]
      simp
    simpa using @lastIdx_append_some '/' D ('/' :: post) 0 h0
  have hidx : dirnameIdx (D ++ '/' :: post) = D.length + 1 := by
    simp [dirnameIdx, hlast]
  have hbase : basename (D ++ '/' :: post) = post := by
    simp only [basename, hlast]
    rw [List.drop_append_eq_append_drop]
    rw [List.drop_eq_nil_of_le (by omega)]
    have e : D.length + 1 - D.length = 1 := by omega
    rw [e]
    simp
  have hhead : (D ++ '/' :: post).take (D.length + 1) = D ++ ['/'] := by
    rw [List.take_append_eq_append_take]
    rw [List.take_all_of_le (by omega)]
    have e : D.length + 1 - D.length = 1 := by omega
    rw [e]
    simp
  have hnb : '/' ∉ build_new_name post p :=
    fun hc => (mem_build hc).elim hpost hp
  have hnbhead : ¬ (build_new_name post p).take 1 = ['/'] := take_one_slash hnb
  rw [hbase]
  unfold dirname
  rw [hidx, hhead]
  rw [slashInit_append hpost]
  by_cases hall : (D ++ ['/']).all (fun c => c = '/') = true
  · rw [if_neg (by simp [hall])]
    unfold joinPath
    rw [if_neg hnbhead, if_neg (by simp), if_pos (by rw [List.getLast?_concat])]
    rw [List.append_assoc]
    show slashInit (D ++ '/' :: build_new_name post p) = _
    rw [slashInit_append hnb]
  · rw [if_pos ⟨by simp, hall⟩]
    have hstrip : rstripSlash (D ++ ['/']) = rstripSlash D := by
      unfold rstripSlash
      rw [List.reverse_append]
      simp [List.dropWhile_cons_of_pos]
    rw [hstrip]
    obtain ⟨z, hz, hzall⟩ := rstripSlash_decomp D
    have hfilter : (splitOnChar '/' (rstripSlash D)).filter (fun c => c ≠ []) =
        (splitOnChar '/' D).filter (fun c => c ≠ []) := by
      conv_rhs => rw [hz]
      exact (filter_splitOnChar_append_all_sep hzall).symm
    rcases rstripSlash_getLast_ne (s := D) with hnil | ⟨a, t, heq, hane⟩
    · -- rstripSlash D = [] means D is all slashes, contradicting hall
      exfalso
      apply hall
      have hDall : ∀ c ∈ D, c = '/' := by
        intro c hc
        rw [hz] at hc
        rcases List.mem_append.mp hc with h | h
        · rw [hnil] at h; cases h
        · exact hzall c h
      simp only [List.all_eq_true]
      intro c hc
      rcases List.mem_append.mp hc with h | h
      · simp [hDall c h]
      · simp at h; simp [h]
    · unfold joinPath
      rw [if_neg hnbhead, if_neg (by simp [heq]),
        if_neg (by rw [heq, List.getLast?_concat]; simp [hane])]
      rw [slashInit_append hnb, hfilter]

/-- C7 counterexample: the claim fails for backslash-separated components
(modelling the POSIX path helpers the code runs on): the leading component
`"a.b"` of `"d/a.b\c"` is modified, and a pattern containing `'/'` inserts
new components. -/
theorem C7_counterexample :
    previewName "d/a.b\x5cc".data "_x".data = "d/a_x.b\x5cc".data ∧
      "a.b".data ∈ (splitSeps "d/a.b\x5cc".data).dropLast ∧
      "a.b".data ∉ splitSeps "d/a_x.b\x5cc".data ∧
      previewName "a/b.mp4".data "/evil".data = "a/b/evil.mp4".data := by
  refine ⟨by decide, by decide, by decide, by decide⟩

/-- C7 (amended): for every path containing a separator and every pattern
without `'/'`, the renaming changes nothing in the list of nonempty leading
`'/'`-components: the `'/'`-separated directory structure is preserved
exactly.  (A backslash is an ordinary character for the POSIX path helpers.) -/
theorem C7_path_preservation (f p : Str) (hf : '/' ∈ f ∨ '\x5c' ∈ f)
    (hp : '/' ∉ p) : slashInit (previewName f p) = slashInit f := by
  unfold previewName
  rw [if_pos hf]
  by_cases hsf : '/' ∈ f
  · obtain ⟨i, hi⟩ := lastIdx_some_of_mem hsf
    obtain ⟨post, hdrop, hpost⟩ := lastIdx_drop hi
    have hfeq : f = f.take i ++ '/' :: post := by
      rw [← hdrop]
      exact (List.take_append_drop i f).symm
    have h := preview_decomp (f.take i) post p hpost hp
    rw [← hfeq] at h
    exact h
  · have hlnone : lastIdx '/' f = none := lastIdx_none_iff.mpr hsf
    have hdn : dirname f = [] := by
      simp [dirname, dirnameIdx, hlnone]
    have hbn : basename f = f := by
      simp only [basename, hlnone]
    have hnb : '/' ∉ build_new_name f p :=
      fun hc => (mem_build hc).elim hsf hp
    have hnbhead : ¬ (build_new_name f p).take 1 = ['/'] := take_one_slash hnb
    rw [hdn, hbn]
    unfold joinPath
    rw [if_neg hnbhead, if_pos rfl]
    rw [List.nil_append]
    rw [slashInit_no_sep hnb, slashInit_no_sep hsf]

/-- Witness for C7: `preview("sub/dir/clip.mp4", "_LR") =
"sub/dir/clip_LR.mp4"` keeps the leading components `["sub", "dir"]`. -/
theorem C7_witness :
    slashInit (previewName "sub/dir/clip.mp4".data "_LR".data) =
      slashInit "sub/dir/clip.mp4".data ∧
      previewName "sub/dir/clip.mp4".data "_LR".data = "sub/dir/clip_LR.mp4".data ∧
      slashInit "sub/dir/clip.mp4".data = ["sub".data, "dir".data] := by
  refine ⟨C7_path_preservation "sub/dir/clip.mp4".data "_LR".data
    (by decide) (by decide), by decide, by decide⟩

/-! ### Claim C3: header canonicalization -/

theorem playa_absorb {t : Str} :
    (("PLAYA VR".data).isPrefixOf t || ("PLAYA VR SPECIFIC".data).isPrefixOf t) =
      ("PLAYA VR".data).isPrefixOf t := by
  cases hA : ("PLAYA VR".data).isPrefixOf t with
  | true => simp
  | false =>
    simp only [Bool.false_or]
    cases hB : ("PLAYA VR SPECIFIC".data).isPrefixOf t with
    | false => rfl
    | true =>
      exfalso
      have hsub : "PLAYA VR".data <+: "PLAYA VR SPECIFIC".data :=
        ⟨" SPECIFIC".data, by decide⟩
      have h2 : "PLAYA VR".data <+: t :=
        hsub.trans (List.isPrefixOf_iff_prefix.mp hB)
      rw [← List.isPrefixOf_iff_prefix, hA] at h2
      cases h2

/-- C3 counterexample: the fallback canonical name can retain trailing
whitespace, because the code strips whitespace before stripping the colon
terminator: `"My Custom Player :"` canonicalizes to `"My Custom Player "`. -/
theorem C3_counterexample :
    _normalize_section_name "My Custom Player :".data = "My Custom Player ".data ∧
      ("My Custom Player ".data).getLast? = some ' ' ∧
      "My Custom Player ".data ≠ "My Custom Player".data := by
  refine ⟨by decide, by decide, by decide⟩

/-- C3 (amended): header canonicalization is exactly the ordered
first-match-wins prefix-rule table of the spec, applied to the header text
stripped of surrounding whitespace and then of trailing colons (so
whitespace standing before the terminator survives in the fallback); the
two examples of the claim hold. -/
theorem C3_header_canonicalization :
    (∀ h : Str, _normalize_section_name h = normalizeSpec h) ∧
      _normalize_section_name "Oculus Video App Specific:".data =
        "Oculus Video App".data ∧
      _normalize_section_name "My Custom Player:".data = "My Custom Player".data := by
  refine ⟨fun h => ?_, by decide, by decide⟩
  unfold _normalize_section_name normalizeSpec
  generalize (headerText h).map Char.toUpper = u
  simp only [applyRules, sectionRules]
  rw [playa_absorb]
  by_cases h1 : (("UNIVERSAL PATTERNS".data).isPrefixOf u) = true
  · simp [h1]
  by_cases h2 : (("PLAYA VR".data).isPrefixOf u) = true
  · simp [h1, h2]
  by_cases h3 : (("SKYBOX VR".data).isPrefixOf u) = true
  · simp [h1, h2, h3]
  by_cases h4 : (("PIGASUS".data).isPrefixOf u) = true
  · simp [h1, h2, h3, h4]
  by_cases h5 : (("RAD TV".data).isPrefixOf u) = true
  · simp [h1, h2, h3, h4, h5]
  by_cases h6 : (("COMMEDIA".data).isPrefixOf u) = true
  · simp [h1, h2, h3, h4, h5, h6]
  by_cases h7 : (("OCULUS".data).isPrefixOf u) = true
  · simp [h1, h2, h3, h4, h5, h6, h7]
  simp [h1, h2, h3, h4, h5, h6, h7]

/-! ### Lemmas about the parser table -/

theorem lookup?_setKey_self (k : Str) (v : List Str) (m : List (Str × List Str)) :
    lookup? k (setKey k v m) = some v := by
  induction m with
  | nil => simp [setKey, lookup?]
  | cons kv rest ih =>
    obtain ⟨k2, w⟩ := kv
    by_cases h : k2 = k
    · simp [setKey, lookup?, h]
    · simp [setKey, lookup?, h, ih]

theorem lookup?_setKey_ne (kw kr : Str) (v : List Str) (m : List (Str × List Str))
    (h : ¬ kw = kr) : lookup? kr (setKey kw v m) = lookup? kr m := by
  induction m with
  | nil => simp [setKey, lookup?, h]
  | cons kv rest ih =>
    obtain ⟨k2, w⟩ := kv
    by_cases h2 : k2 = kw
    · subst h2
      simp [setKey, lookup?, h]
    · simp [setKey, lookup?, h2, ih]

theorem lookup?_append_some {k : Str} {m l : List (Str × List Str)} {v : List Str}
    (h : lookup? k m = some v) : lookup? k (m ++ l) = some v := by
  induction m with
  | nil => simp [lookup?] at h
  | cons kv rest ih =>
    obtain ⟨k2, w⟩ := kv
    by_cases h2 : k2 = k
    · simp only [lookup?, if_pos h2] at h ⊢
      exact h
    · simp only [lookup?, if_neg h2] at h ⊢
      exact ih h

theorem lookup?_append_none {k : Str} {m l : List (Str × List Str)}
    (h : lookup? k m = none) : lookup? k (m ++ l) = lookup? k l := by
  induction m with
  | nil => simp
  | cons kv rest ih =>
    obtain ⟨k2, w⟩ := kv
    by_cases h2 : k2 = k
    · simp only [lookup?, if_pos h2] at h
      cases h
    · simp only [lookup?, if_neg h2] at h ⊢
      exact ih h

theorem lookup?_map (k : Str) (g : List Str → List Str) (m : List (Str × List Str)) :
    lookup? k (m.map (fun kv => (kv.1, g kv.2))) = Option.map g (lookup? k m) := by
  induction m with
  | nil => simp [lookup?]
  | cons kv rest ih =>
    obtain ⟨k2, w⟩ := kv
    by_cases h : k2 = k
    · simp [lookup?, h]
    · simp [lookup?, h, ih]

theorem headerUpdate_lookup (sec : Str) (m : List (Str × List Str)) :
    lookup? sec (headerUpdate sec m) = some (oldTokens sec m) := by
  unfold headerUpdate oldTokens
  cases h : lookup? sec m with
  | some v => simp [h]
  | none =>
    rw [lookup?_append_none h]
    simp [lookup?]

theorem addTokens_nodup {cur : List Str} (ts : List Str) (h : cur.Nodup) :
    (addTokens cur ts).Nodup := by
  induction ts generalizing cur with
  | nil => exact h
  | cons t ts ih =>
    unfold addTokens
    by_cases h1 : t = []
    · rw [if_pos h1]
      exact ih h
    · rw [if_neg h1]
      by_cases h2 : (['_'].isPrefixOf t) = true ∧ t ∉ cur
      · rw [if_pos h2]
        refine ih (List.nodup_append.mpr ⟨h, List.nodup_singleton t, ?_⟩)
        intro a ha hb
        rw [List.mem_singleton] at hb
        subst hb
        exact h2.2 ha
      · rw [if_neg h2]
        exact ih h

theorem addTokens_mem {cur ts : List Str} {t : Str} (h : t ∈ addTokens cur ts) :
    t ∈ cur ∨ (t ∈ ts ∧ ['_'].isPrefixOf t = true) := by
  induction ts generalizing cur with
  | nil => exact Or.inl h
  | cons s ts ih =>
    unfold addTokens at h
    by_cases h1 : s = []
    · rw [if_pos h1] at h
      rcases ih h with h2 | h2
      · exact Or.inl h2
      · exact Or.inr ⟨List.mem_cons_of_mem s h2.1, h2.2⟩
    · rw [if_neg h1] at h
      by_cases h2 : (['_'].isPrefixOf s) = true ∧ s ∉ cur
      · rw [if_pos h2] at h
        rcases ih h with h3 | h3
        · rcases List.mem_append.mp h3 with h4 | h4
          · exact Or.inl h4
          · rw [List.mem_singleton] at h4
            subst h4
            exact Or.inr ⟨by simp, h2.1⟩
        · exact Or.inr ⟨List.mem_cons_of_mem s h3.1, h3.2⟩
      · rw [if_neg h2] at h
        rcases ih h with h3 | h3
        · exact Or.inl h3
        · exact Or.inr ⟨List.mem_cons_of_mem s h3.1, h3.2⟩

/-- Every token sequence of the table has no duplicates. -/
def NodupTable (m : List (Str × List Str)) : Prop :=
  ∀ k v, lookup? k m = some v → v.Nodup

theorem oldTokens_nodup {k : Str} {m : List (Str × List Str)} (h : NodupTable m) :
    (oldTokens k m).Nodup := by
  unfold oldTokens
  cases h2 : lookup? k m with
  | some v =>
    simpa using h k v h2
  | none => simp

theorem nodupTable_processLine {st : PState} (line : Str)
    (h : NodupTable st.conventions) : NodupTable (processLine st line).conventions := by
  unfold processLine
  by_cases h1 : stripWs line = []
  · rw [if_pos h1]
    exact h
  rw [if_neg h1]
  by_cases h2 : (stripWs line).getLast? = some ':'
  · rw [if_pos h2]
    intro k v hv
    unfold headerUpdate at hv
    cases h3 : lookup? (_normalize_section_name line) st.conventions with
    | some w =>
      rw [h3] at hv
      exact h k v hv
    | none =>
      rw [h3] at hv
      cases h4 : lookup? k st.conventions with
      | some w =>
        rw [lookup?_append_some h4] at hv
        cases hv
        exact h k _ h4
      | none =>
        rw [lookup?_append_none h4] at hv
        by_cases h5 : _normalize_section_name line = k
        · simp only [lookup?, if_pos h5] at hv
          cases hv
          exact List.nodup_nil
        · simp only [lookup?, if_neg h5] at hv
          cases hv
  rw [if_neg h2]
  by_cases h3 : st.current = []
  · rw [if_pos h3]
    exact h
  · rw [if_neg h3]
    intro k v hv
    by_cases h4 : st.current = k
    · subst h4
      rw [lookup?_setKey_self] at hv
      cases hv
      exact addTokens_nodup _ (oldTokens_nodup h)
    · rw [lookup?_setKey_ne _ _ _ _ h4] at hv
      exact h k v hv

theorem nodupTable_foldl (lines : List Str) (st : PState) (h : NodupTable st.conventions) :
    NodupTable (lines.foldl processLine st).conventions := by
  induction lines generalizing st with
  | nil => exact h
  | cons l ls ih => exact ih _ (nodupTable_processLine l h)

/-! ### Lemmas about the stable case-insensitive sort -/

theorem lexLt_irrefl (a : Str) : lexLt a a = false := by
  induction a with
  | nil => rfl
  | cons x xs ih => simp [lexLt, ih, lt_irrefl]

theorem lexLt_asymm {a b : Str} (h : lexLt a b = true) : lexLt b a = false := by
  induction a generalizing b with
  | nil =>
    cases b with
    | nil => cases h
    | cons y bs => rfl
  | cons x xs ih =>
    cases b with
    | nil => cases h
    | cons y bs =>
      unfold lexLt at h ⊢
      by_cases h1 : x < y
      · rw [if_neg (lt_asymm h1), if_pos h1]
      · rw [if_neg h1] at h
        by_cases h2 : y < x
        · rw [if_pos h2] at h
          cases h
        · rw [if_neg h2] at h
          rw [if_neg h2, if_neg h1]
          exact ih h

theorem lexLt_trans {a b c : Str} (h1 : lexLt a b = true) (h2 : lexLt b c = true) :
    lexLt a c = true := by
  induction a generalizing b c with
  | nil =>
    cases c with
    | nil =>
      cases b with
      | nil => cases h1
      | cons y bs => cases h2
    | cons z cs => rfl
  | cons x xs ih =>
    cases b with
    | nil => cases h1
    | cons y bs =>
      cases c with
      | nil => cases h2
      | cons z cs =>
        unfold lexLt at h1 h2 ⊢
        by_cases hxy : x < y
        · by_cases hyz : y < z
          · rw [if_pos (lt_trans hxy hyz)]
          · rw [if_neg hyz] at h2
            by_cases hzy : z < y
            · rw [if_pos hzy] at h2
              cases h2
            · have heq : y = z := le_antisymm (not_lt.mp hzy) (not_lt.mp hyz)
              subst heq
              rw [if_pos hxy]
        · rw [if_neg hxy] at h1
          by_cases hyx : y < x
          · rw [if_pos hyx] at h1
            cases h1
          · rw [if_neg hyx] at h1
            have heq : x = y := le_antisymm (not_lt.mp hyx) (not_lt.mp hxy)
            subst heq
            by_cases hxz : x < z
            · rw [if_pos hxz]
            · rw [if_neg hxz] at h2 ⊢
              by_cases hzx : z < x
              · rw [if_pos hzx] at h2
                cases h2
              · rw [if_neg hzx] at h2 ⊢
                exact ih h1 h2

theorem lowerLt_irrefl (a : Str) : lowerLt a a = false := lexLt_irrefl _

theorem lowerLt_asymm {a b : Str} (h : lowerLt a b = true) : lowerLt b a = false :=
  lexLt_asymm h

theorem lowerLt_trans {a b c : Str} (h1 : lowerLt a b = true) (h2 : lowerLt b c = true) :
    lowerLt a c = true := lexLt_trans h1 h2

/-- The case-insensitive sort key. -/
def keyOf (s : Str) : Str := s.map Char.toLower

theorem lowerLt_congr_left {a b c : Str} (h : keyOf a = keyOf b) :
    lowerLt a c = lowerLt b c := by
  unfold lowerLt
  unfold keyOf at h
  rw [h]

theorem lowerLt_congr_right {a b c : Str} (h : keyOf a = keyOf b) :
    lowerLt c a = lowerLt c b := by
  unfold lowerLt
  unfold keyOf at h
  rw [h]

theorem insLower_perm (x : Str) (l : List Str) : (insLower x l).Perm (x :: l) := by
  induction l with
  | nil => exact List.Perm.refl _
  | cons y ys ih =>
    unfold insLower
    by_cases h : lowerLt x y = true
    · rw [if_pos h]
    · rw [if_neg h]
      exact (ih.cons y).trans (List.Perm.swap x y ys)

theorem insLower_mem {z x : Str} {l : List Str} (h : z ∈ insLower x l) :
    z = x ∨ z ∈ l := by
  have := (insLower_perm x l).mem_iff.mp h
  exact List.mem_cons.mp this

theorem insLower_pairwise {x : Str} {l : List Str}
    (h : l.Pairwise (fun a b => lowerLt b a = false)) :
    (insLower x l).Pairwise (fun a b => lowerLt b a = false) := by
  induction l with
  | nil => simp [insLower]
  | cons y ys ih =>
    rcases List.pairwise_cons.mp h with ⟨hy, hys⟩
    unfold insLower
    by_cases h1 : lowerLt x y = true
    · rw [if_pos h1]
      refine List.pairwise_cons.mpr ⟨?_, h⟩
      intro z hz
      rcases List.mem_cons.mp hz with h2 | h2
      · subst h2
        exact lowerLt_asymm h1
      · cases hzx : lowerLt z x with
        | false => rfl
        | true =>
          have := lowerLt_trans hzx h1
          rw [hy z h2] at this
          cases this
    · rw [if_neg h1]
      refine List.pairwise_cons.mpr ⟨?_, ih hys⟩
      intro z hz
      rcases insLower_mem hz with h2 | h2
      · subst h2
        cases hb : lowerLt z y with
        | false => rfl
        | true => exact absurd hb h1
      · exact hy z h2

theorem insSort_fold_perm (l : List Str) (acc : List Str) :
    (l.foldl (fun a x => insLower x a) acc).Perm (acc ++ l) := by
  induction l generalizing acc with
  | nil => simp
  | cons x xs ih =>
    show (xs.foldl (fun a x => insLower x a) (insLower x acc)).Perm (acc ++ x :: xs)
    refine ((ih (insLower x acc)).trans ?_)
    refine ((insLower_perm x acc).append_right xs).trans ?_
    exact List.perm_middle.symm

theorem insSortLower_perm (l : List Str) : (insSortLower l).Perm l := by
  simpa using insSort_fold_perm l []

theorem insSort_fold_pairwise (l : List Str) (acc : List Str)
    (h : acc.Pairwise (fun a b => lowerLt b a = false)) :
    (l.foldl (fun a x => insLower x a) acc).Pairwise
      (fun a b => lowerLt b a = false) := by
  induction l generalizing acc with
  | nil => exact h
  | cons x xs ih => exact ih _ (insLower_pairwise h)

theorem insSortLower_pairwise (l : List Str) :
    (insSortLower l).Pairwise (fun a b => lowerLt b a = false) :=
  insSort_fold_pairwise l [] (by simp)

theorem filter_insLower {x : Str} {l : List Str} (key : Str)
    (hs : l.Pairwise (fun a b => lowerLt b a = false)) :
    (insLower x l).filter (fun s => keyOf s == key) =
      l.filter (fun s => keyOf s == key) ++
        (if keyOf x == key then [x] else []) := by
  induction l with
  | nil =>
    cases hx : (keyOf x == key) with
    | true => simp [insLower, hx]
    | false => simp [insLower, hx]
  | cons y ys ih =>
    rcases List.pairwise_cons.mp hs with ⟨hy, hys⟩
    unfold insLower
    by_cases h1 : lowerLt x y = true
    · rw [if_pos h1]
      by_cases hx : (keyOf x == key) = true
      · have hkx : keyOf x = key := beq_iff_eq.mp hx
        have hempty : (y :: ys).filter (fun s => keyOf s == key) = [] := by
          rw [List.filter_eq_nil_iff]
          intro a ha hk
          have hka : keyOf a = key := beq_iff_eq.mp hk
          rcases List.mem_cons.mp ha with h2 | h2
          · subst h2
            have he : lowerLt x a = lowerLt x x :=
              lowerLt_congr_right (by rw [hka, hkx])
            rw [he, lowerLt_irrefl] at h1
            cases h1
          · have he : lowerLt a y = lowerLt x y :=
              lowerLt_congr_left (by rw [hka, hkx])
            have hzero := hy a h2
            rw [he, h1] at hzero
            cases hzero
        rw [@List.filter_cons_of_pos _ (fun s => keyOf s == key) x (y :: ys) hx,
          hempty, if_pos hx]
        simp
      · rw [@List.filter_cons_of_neg _ (fun s => keyOf s == key) x (y :: ys) hx,
          if_neg hx, List.append_nil]
    · rw [if_neg h1]
      by_cases hy2 : (keyOf y == key) = true
      · rw [@List.filter_cons_of_pos _ (fun s => keyOf s == key) y (insLower x ys) hy2,
          @List.filter_cons_of_pos _ (fun s => keyOf s == key) y ys hy2, ih hys,
          List.cons_append]
      · rw [@List.filter_cons_of_neg _ (fun s => keyOf s == key) y (insLower x ys) hy2,
          @List.filter_cons_of_neg _ (fun s => keyOf s == key) y ys hy2, ih hys]

theorem filter_insSort_fold (l : List Str) (acc : List Str) (key : Str)
    (h : acc.Pairwise (fun a b => lowerLt b a = false)) :
    (l.foldl (fun a x => insLower x a) acc).filter (fun s => keyOf s == key) =
      acc.filter (fun s => keyOf s == key) ++
        l.filter (fun s => keyOf s == key) := by
  induction l generalizing acc with
  | nil => simp
  | cons x xs ih =>
    show ((xs.foldl (fun a x => insLower x a) (insLower x acc)).filter
        (fun s => keyOf s == key)) = _
    rw [ih (insLower x acc) (insLower_pairwise h)]
    rw [filter_insLower key h]
    by_cases hx : (keyOf x == key) = true
    · rw [if_pos hx, @List.filter_cons_of_pos _ (fun s => keyOf s == key) x xs hx]
      simp
    · rw [if_neg hx, @List.filter_cons_of_neg _ (fun s => keyOf s == key) x xs hx]
      simp

/-! ### Claim C4: no duplicate tokens in any section -/

/-- C4: in the parsed table no token appears twice in any section's
sequence; duplicate suppression is by exact string equality, so tokens
differing only in case stay distinct entries. -/
theorem C4_no_duplicates (lines : List Str) (k : Str) (v : List Str)
    (h : lookup? k (parse_naming_conventions lines) = some v) : v.Nodup := by
  unfold parse_naming_conventions at h
  rw [lookup?_map] at h
  cases h2 : lookup? k (parseRawTable lines) with
  | none =>
    rw [h2] at h
    cases h
  | some raw =>
    rw [h2] at h
    have hv : v = insSortLower raw := by
      rw [h2] at *
      simpa using h.symm
    have hstart : NodupTable initState.conventions := by
      intro k2 v2 hv2
      simp [initState, lookup?] at hv2
    have hraw : raw.Nodup := nodupTable_foldl lines initState hstart k raw h2
    rw [hv]
    exact ((insSortLower_perm raw).nodup_iff).mpr hraw

/-- Witness for C4: a token reappearing (`"_lr"`) is not duplicated, while
`"_lr"` and `"_LR"` (differing only in case) are both kept. -/
theorem C4_witness :
    lookup? "H".data (parse_naming_conventions
        ["H:".data, "_lr = a".data, "_LR = b".data, "_lr = c".data]) =
      some ["_lr".data, "_LR".data] ∧
      (["_lr".data, "_LR".data] : List Str).Nodup :=
  ⟨by decide, C4_no_duplicates
    ["H:".data, "_lr = a".data, "_LR = b".data, "_lr = c".data]
    "H".data ["_lr".data, "_LR".data] (by decide)⟩

/-! ### Claim C5: case-insensitive stable sorting of each section -/

/-- C5: every section of the parsed table is sorted case-insensitively
(lexicographically on the lower-cased token), and for every case-insensitive
key the tokens with that key appear in exactly the order in which the
unsorted parse inserted them (stability). -/
theorem C5_sorted_stable (lines : List Str) (k : Str) (v : List Str)
    (h : lookup? k (parse_naming_conventions lines) = some v) :
    v.Pairwise (fun a b => lowerLt b a = false) ∧
      ∀ raw, lookup? k (parseRawTable lines) = some raw →
        ∀ key, v.filter (fun s => keyOf s == key) =
          raw.filter (fun s => keyOf s == key) := by
  unfold parse_naming_conventions at h
  rw [lookup?_map] at h
  cases h2 : lookup? k (parseRawTable lines) with
  | none =>
    rw [h2] at h
    cases h
  | some raw =>
    rw [h2] at h
    have hv : v = insSortLower raw := by simpa using h.symm
    constructor
    · rw [hv]
      exact insSortLower_pairwise raw
    · intro raw2 h3 key
      have hrr : raw = raw2 := by simpa using h3
      subst hrr
      rw [hv]
      unfold insSortLower
      rw [filter_insSort_fold raw [] key (by simp)]
      simp

/-- Witness for C5: tokens `["_b", "_a", "_A"]` inserted in that order sort
to `["_a", "_A", "_b"]` — sorted case-insensitively with the tie
`"_a"`/`"_A"` keeping insertion order. -/
theorem C5_witness :
    (["_a".data, "_A".data, "_b".data] : List Str).Pairwise
        (fun a b => lowerLt b a = false) ∧
      (["_a".data, "_A".data, "_b".data] : List Str).filter
          (fun s => keyOf s == "_a".data) =
        (["_b".data, "_a".data, "_A".data] : List Str).filter
          (fun s => keyOf s == "_a".data) := by
  have h := C5_sorted_stable
    ["H:".data, "_b = x".data, "_a = y".data, "_A = z".data] "H".data
    ["_a".data, "_A".data, "_b".data] (by decide)
  exact ⟨h.1, h.2 ["_b".data, "_a".data, "_A".data] (by decide) "_a".data⟩

/-! ### Claim C6: token extraction from pattern lines -/

theorem addTokens_nil (cur : List Str) : addTokens cur [] = cur := rfl

theorem addTokens_cons_add {t : Str} (cur ts : List Str) (h : ¬ t = [])
    (h2 : (['_'].isPrefixOf t) = true ∧ t ∉ cur) :
    addTokens cur (t :: ts) = addTokens (cur ++ [t]) ts := by
  simp only [addTokens, if_neg h, if_pos h2]

/-- C6: under an active section a pattern line contributes exactly the
candidates of `extractTokens` (before-first-`'='` text split on commas and
trimmed, else the whole trimmed line) that start with `'_'` and are new; in
particular `"_3dh, _LR, _SBS = stereo formats"` contributes exactly
`["_3dh", "_LR", "_SBS"]`. -/
theorem C6_token_extraction (st : PState) (old : List Str)
    (hcur : ¬ st.current = [])
    (hold : lookup? st.current st.conventions = some old) :
    (∀ line, ¬ stripWs line = [] → ¬ (stripWs line).getLast? = some ':' →
      lookup? st.current (processLine st line).conventions =
        some (addTokens old (extractTokens line)) ∧
      ∀ t, t ∈ addTokens old (extractTokens line) →
        t ∈ old ∨ (t ∈ extractTokens line ∧ ['_'].isPrefixOf t = true)) ∧
    extractTokens "_3dh, _LR, _SBS = stereo formats".data =
      ["_3dh".data, "_LR".data, "_SBS".data] ∧
    (("_3dh".data ∉ old ∧ "_LR".data ∉ old ∧ "_SBS".data ∉ old) →
      addTokens old (extractTokens "_3dh, _LR, _SBS = stereo formats".data) =
        old ++ ["_3dh".data, "_LR".data, "_SBS".data]) := by
  have hex : extractTokens "_3dh, _LR, _SBS = stereo formats".data =
      ["_3dh".data, "_LR".data, "_SBS".data] := by decide
  refine ⟨fun line hnb hnh => ⟨?_, fun t ht => addTokens_mem ht⟩, hex, ?_⟩
  · have hps : processLine st line =
        ⟨setKey st.current
          (addTokens (oldTokens st.current st.conventions) (extractTokens line))
          st.conventions, st.current⟩ := by
      unfold processLine
      rw [if_neg hnb, if_neg hnh, if_neg hcur]
    rw [hps]
    show lookup? st.current (setKey st.current
      (addTokens (oldTokens st.current st.conventions) (extractTokens line))
      st.conventions) = _
    rw [lookup?_setKey_self,
      show oldTokens st.current st.conventions = old from by
        unfold oldTokens
        rw [hold]]
  · rintro ⟨h1, h2, h3⟩
    rw [hex]
    have h2a : "_LR".data ∉ old ++ ["_3dh".data] := by
      intro hc
      rcases List.mem_append.mp hc with hc | hc
      · exact h2 hc
      · rw [List.mem_singleton] at hc
        exact absurd hc (by decide)
    have h3a : "_SBS".data ∉ (old ++ ["_3dh".data]) ++ ["_LR".data] := by
      intro hc
      rcases List.mem_append.mp hc with hc | hc
      · rcases List.mem_append.mp hc with hc | hc
        · exact h3 hc
        · rw [List.mem_singleton] at hc
          exact absurd hc (by decide)
      · rw [List.mem_singleton] at hc
        exact absurd hc (by decide)
    rw [addTokens_cons_add _ _ (by decide) ⟨by decide, h1⟩,
      addTokens_cons_add _ _ (by decide) ⟨by decide, h2a⟩,
      addTokens_cons_add _ _ (by decide) ⟨by decide, h3a⟩,
      addTokens_nil]
    simp

/-- Witness for C6: the concrete line under a fresh section. -/
theorem C6_witness :
    lookup? "H".data (processLine ⟨[("H".data, [])], "H".data⟩
        "_3dh, _LR, _SBS = stereo formats".data).conventions =
      some (addTokens [] (extractTokens "_3dh, _LR, _SBS = stereo formats".data)) ∧
      addTokens [] (extractTokens "_3dh, _LR, _SBS = stereo formats".data) =
        ["_3dh".data, "_LR".data, "_SBS".data] := by
  have h := C6_token_extraction ⟨[("H".data, [])], "H".data⟩ []
    (by decide) (by decide)
  refine ⟨(h.1 "_3dh, _LR, _SBS = stereo formats".data (by decide) (by decide)).1, ?_⟩
  have h3 := h.2.2 ⟨by simp, by simp, by simp⟩
  simpa using h3

/-! ### Claim C9: lines before the first header are dropped -/

/-- A line that establishes a section: non-blank and, once stripped, ending
in the terminator. -/
def isHeaderLine (line : Str) : Bool :=
  !(stripWs line == []) && ((stripWs line).getLast? == some ':')

theorem processLine_init_non_header {line : Str} (h : ¬ isHeaderLine line = true) :
    processLine initState line = initState := by
  unfold processLine
  by_cases h1 : stripWs line = []
  · rw [if_pos h1]
  · rw [if_neg h1]
    have h2 : ¬ (stripWs line).getLast? = some ':' := by
      intro hc
      apply h
      simp [isHeaderLine, h1, hc]
    rw [if_neg h2, if_pos (show initState.current = [] from rfl)]

theorem foldl_init_non_headers :
    ∀ pre : List Str, (∀ l ∈ pre, ¬ isHeaderLine l = true) →
      pre.foldl processLine initState = initState := by
  intro pre
  induction pre with
  | nil => intro _; rfl
  | cons l ls ih =>
    intro h
    show ls.foldl processLine (processLine initState l) = initState
    rw [processLine_init_non_header (h l (by simp))]
    exact ih (fun l2 hl2 => h l2 (List.mem_cons_of_mem l hl2))

/-- C9: non-header lines (blank or not) before the first header contribute
nothing — parsing the text with such a prefix removed yields the same
table. -/
theorem C9_drop_before_header (pre rest : List Str)
    (h : ∀ l ∈ pre, ¬ isHeaderLine l = true) :
    parse_naming_conventions (pre ++ rest) = parse_naming_conventions rest := by
  unfold parse_naming_conventions parseRawTable
  rw [List.foldl_append, foldl_init_non_headers pre h]

/-- Witness for C9: two junk lines before the first header change nothing. -/
theorem C9_witness :
    parse_naming_conventions
        (["junk line".data, "_early = x".data] ++
          ["Universal Patterns:".data, "_180_LR = desc".data]) =
      parse_naming_conventions ["Universal Patterns:".data, "_180_LR = desc".data] :=
  C9_drop_before_header ["junk line".data, "_early = x".data]
    ["Universal Patterns:".data, "_180_LR = desc".data] (by decide)

/-! ### Claim C10: a header canonicalizing to the empty string -/

/-- C10: a header line whose canonical name is empty creates (or keeps) a
table entry keyed by the empty string and resets the current section to the
empty-string sentinel, so every following non-header line leaves the state
unchanged. -/
theorem C10_empty_section_sentinel (st : PState) (line : Str)
    (h1 : ¬ stripWs line = []) (h2 : (stripWs line).getLast? = some ':')
    (h3 : _normalize_section_name line = []) :
    (processLine st line).current = [] ∧
      lookup? [] (processLine st line).conventions =
        some (oldTokens [] st.conventions) ∧
      ∀ l2, ¬ stripWs l2 = [] → ¬ (stripWs l2).getLast? = some ':' →
        processLine (processLine st line) l2 = processLine st line := by
  have hps : processLine st line = ⟨headerUpdate [] st.conventions, []⟩ := by
    unfold processLine
    rw [if_neg h1, if_pos h2, h3]
  refine ⟨by rw [hps], ?_, ?_⟩
  · rw [hps]
    exact headerUpdate_lookup [] st.conventions
  · intro l2 hnb hnh
    rw [hps]
    unfold processLine
    rw [if_neg hnb, if_neg hnh,
      if_pos (show (⟨headerUpdate [] st.conventions, []⟩ : PState).current = [] from rfl)]

/-- Witness for C10: the header `":"` on the initial state. -/
theorem C10_witness :
    (processLine initState ":".data).current = [] ∧
      lookup? [] (processLine initState ":".data).conventions =
        some (oldTokens [] initState.conventions) ∧
      processLine (processLine initState ":".data) "_ghost = x".data =
        processLine initState ":".data := by
  have h := C10_empty_section_sentinel initState ":".data
    (by decide) (by decide) (by decide)
  exact ⟨h.1, h.2.1, h.2.2 "_ghost = x".data (by decide) (by decide)⟩

end VRApp
